import Mathlib

/-!
Shallow embedding of the RLE codec in `rle.py` (run-length encoding with
escape sequences and a sentinel marker).  Python strings are modelled as
`List Char`; `str.isdigit` / `str.isalpha` are modelled by the ASCII
predicates `Char.isDigit` / `Char.isAlpha`, matching the spec's "decimal
digits" and "A-Z/a-z".  Every `raise ValueError(...)` site in the source
gets its own constructor below, so a Python exception is modelled as
`Except.error` carrying the corresponding kind.
-/

namespace RleCodec

/-- Error kinds for the decoding functions: one constructor per distinct
`raise ValueError` site in `rle.py` (the spec calls these `FormatError`). -/
inductive FormatError where
  /-- line 101: unexpected end of encoded data (unreachable from the decode loop). -/
  | unexpectedEnd
  /-- line 106: dangling hash at end of encoded data. -/
  | danglingEscape
  /-- line 112: invalid escape sequence. -/
  | invalidEscape
  /-- line 116: digit appeared where a character was expected. -/
  | unescapedDigit
  /-- lines 141: encoded string must start with the sentinel. -/
  | missingSentinel
  /-- lines 166 and 274: count must be a positive integer. -/
  | nonPositiveCount
  /-- line 261: legacy RLE count appears before a character. -/
  | countBeforeCharacter
deriving DecidableEq

/-- Error kinds for `validate_activity1_input_alpha` (the spec's `ValidationError`). -/
inductive ValidationError where
  /-- line 198: input cannot be empty. -/
  | emptyInput
  /-- line 200: alphabetic characters only. -/
  | nonAlphabetic
deriving DecidableEq

/-- The constant `ENCODED_PREFIX = "##00"` of `rle.py`, as a character list. -/
def ENCODED_MARK : List Char := ['#', '#', '0', '0']

/-- Value of an ASCII digit character, as used by Python `int` on one digit. -/
def digitVal (c : Char) : Nat := c.toNat - 48

/-- Python `int(s)` restricted to non-empty strings of decimal digits:
fold the digits left to right. -/
def parseNat (ds : List Char) : Nat :=
  ds.foldl (fun acc c => 10 * acc + digitVal c) 0

/-- Python `str(n)`: the decimal numeral of `n`, most significant digit
first (built from Mathlib's little-endian `Nat.digits`). -/
def natDigits (n : Nat) : List Char :=
  ((Nat.digits 10 n).map Nat.digitChar).reverse

/-- Embeds `_escape_literal_char` (rle.py lines 30-43). -/
def escape_literal_char (c : Char) : List Char :=
  if c = '#' then ['#', '#']
  else if c.isDigit then ['#', c]
  else [c]

/-- The count part the encoder appends after an escaped run character:
`str(count)` when `count > 1`, nothing otherwise (rle.py lines 76-77, 83-84). -/
def countSuffix (n : Nat) : List Char :=
  if 1 < n then natDigits n else []

/-- Embeds the encoder loop of `encode_rle` (rle.py lines 66-86): `prev` is the
current run character, `count` its accumulated length, and the argument list is
the not-yet-scanned remainder of the input. -/
def encodeAux (prev : Char) (count : Nat) : List Char → List Char
  | [] => escape_literal_char prev ++ countSuffix count
  | c :: rest =>
    if c = prev then encodeAux prev (count + 1) rest
    else escape_literal_char prev ++ countSuffix count ++ encodeAux c 1 rest

/-- Embeds `encode_rle` (rle.py lines 46-86). -/
def encode_rle (raw : List Char) : List Char :=
  match raw with
  | [] => ENCODED_MARK
  | c :: rest => ENCODED_MARK ++ encodeAux c 1 rest

/-- Embeds `_unescape_one` (rle.py lines 89-120).  The Python function takes
the payload plus an index and returns `(literal, next_index)`; here the
argument is the payload suffix from that index on, and the result carries the
suffix from `next_index` on. -/
def unescape_one : List Char → Except FormatError (Char × List Char)
  | [] => .error .unexpectedEnd
  | c :: rest =>
    if c = '#' then
      match rest with
      | [] => .error .danglingEscape
      | d :: rest2 =>
        if d = '#' then .ok ('#', rest2)
        else if d.isDigit then .ok (d, rest2)
        else .error .invalidEscape
    else if c.isDigit then .error .unescapedDigit
    else .ok (c, rest)

/-- Embeds the `while i < len(payload)` loop of `decode_rle` (rle.py lines
149-171).  The loop advances the index by at least one per iteration, so it is
run here with explicit fuel; fuel equal to the payload length always suffices
and the `unexpectedEnd` arm for exhausted fuel is unreachable from
`decode_rle`. -/
def decodeLoop : Nat → List Char → Except FormatError (List Char)
  | _, [] => .ok []
  | 0, _ :: _ => .error .unexpectedEnd
  | f + 1, c :: t =>
    match unescape_one (c :: t) with
    | .error e => .error e
    | .ok (lit, rest) =>
      if (rest.takeWhile fun d => d.isDigit).isEmpty then
        (decodeLoop f rest).map fun tl => lit :: tl
      else if parseNat (rest.takeWhile fun d => d.isDigit) = 0 then
        .error .nonPositiveCount
      else
        (decodeLoop f (rest.dropWhile fun d => d.isDigit)).map fun tl =>
          List.replicate (parseNat (rest.takeWhile fun d => d.isDigit)) lit ++ tl

/-- Embeds `decode_rle` (rle.py lines 123-171): check the sentinel
(`str.startswith` is "the first four characters are `##00`"), strip it, and
run the decode loop on the payload. -/
def decode_rle (encoded : List Char) : Except FormatError (List Char) :=
  if encoded.take 4 = ENCODED_MARK then
    decodeLoop (encoded.drop 4).length (encoded.drop 4)
  else .error .missingSentinel

/-- Embeds `is_probably_encoded` (rle.py lines 174-189). -/
def is_probably_encoded (user_input : List Char) : Bool :=
  if user_input.take 4 = ENCODED_MARK then true
  else user_input.any fun c => c.isDigit

/-- Python `s.isalpha()`: non-empty and every character alphabetic. -/
def pyIsAlpha (s : List Char) : Bool :=
  !s.isEmpty && s.all fun c => c.isAlpha

/-- Embeds `validate_activity1_input_alpha` (rle.py lines 192-200). -/
def validate_activity1_input_alpha (s : List Char) : Except ValidationError Unit :=
  if s = [] then .error .emptyInput
  else if !pyIsAlpha s then .error .nonAlphabetic
  else .ok ()

/-- Embeds the `while i < len(s)` loop of `decode_legacy_rle` (rle.py lines
255-279), again with fuel bounded by the remaining length. -/
def decodeLegacyLoop : Nat → List Char → Except FormatError (List Char)
  | _, [] => .ok []
  | 0, _ :: _ => .error .unexpectedEnd
  | f + 1, c :: rest =>
    if c.isDigit then .error .countBeforeCharacter
    else if (rest.takeWhile fun d => d.isDigit).isEmpty then
      (decodeLegacyLoop f rest).map fun tl => c :: tl
    else if parseNat (rest.takeWhile fun d => d.isDigit) = 0 then
      .error .nonPositiveCount
    else
      (decodeLegacyLoop f (rest.dropWhile fun d => d.isDigit)).map fun tl =>
        List.replicate (parseNat (rest.takeWhile fun d => d.isDigit)) c ++ tl

/-- Embeds `decode_legacy_rle` (rle.py lines 238-279). -/
def decode_legacy_rle (s : List Char) : Except FormatError (List Char) :=
  decodeLegacyLoop s.length s

/-! Arithmetic facts about decimal numerals. -/

lemma digitVal_digitChar : ∀ d < 10, digitVal (Nat.digitChar d) = d := by decide

lemma isDigit_digitChar : ∀ d < 10, (Nat.digitChar d).isDigit = true := by decide

lemma parseNat_revMap :
    ∀ L : List Nat, (∀ d ∈ L, d < 10) →
      parseNat ((L.map Nat.digitChar).reverse) = Nat.ofDigits 10 L := by
  intro L
  induction L with
  | nil => intro _; rfl
  | cons d T ih =>
    intro h
    have hd : d < 10 := h d (by simp)
    have hT : ∀ x ∈ T, x < 10 := fun x hx => h x (by simp [hx])
    simp only [List.map_cons, List.reverse_cons]
    show List.foldl _ 0 (_ ++ _) = _
    rw [List.foldl_append]
    show 10 * parseNat ((T.map Nat.digitChar).reverse) + digitVal (Nat.digitChar d) =
      Nat.ofDigits 10 (d :: T)
    rw [ih hT, digitVal_digitChar d hd, Nat.ofDigits_cons]
    omega

lemma parseNat_natDigits (n : Nat) : parseNat (natDigits n) = n := by
  have h := parseNat_revMap (Nat.digits 10 n)
    (fun d hd => Nat.digits_lt_base (by norm_num) hd)
  rw [Nat.ofDigits_digits] at h
  exact h

lemma natDigits_ne_nil {n : Nat} (h : n ≠ 0) : natDigits n ≠ [] := by
  simp [natDigits, Nat.digits_ne_nil_iff_ne_zero, h]

lemma mem_natDigits_isDigit {n : Nat} {c : Char} (hc : c ∈ natDigits n) :
    c.isDigit = true := by
  simp only [natDigits, List.mem_reverse, List.mem_map] at hc
  obtain ⟨d, hd, rfl⟩ := hc
  exact isDigit_digitChar d (Nat.digits_lt_base (by norm_num) hd)

lemma natDigits_ne_one {n : Nat} (h : 2 ≤ n) : natDigits n ≠ ['1'] := by
  intro he
  have hp := parseNat_natDigits n
  rw [he] at hp
  have : parseNat ['1'] = 1 := rfl
  omega

/-! Facts about `takeWhile` and `dropWhile` at the boundary between an
all-satisfying block and a first failing element. -/

lemma takeWhile_all {α} {p : α → Bool} :
    ∀ {A : List α}, (∀ a ∈ A, p a = true) → A.takeWhile p = A := by
  intro A
  induction A with
  | nil => intro _; rfl
  | cons a t ih =>
    intro h
    rw [List.takeWhile_cons, h a (by simp), if_pos rfl, ih fun x hx => h x (by simp [hx])]

lemma dropWhile_all {α} {p : α → Bool} :
    ∀ {A : List α}, (∀ a ∈ A, p a = true) → A.dropWhile p = [] := by
  intro A
  induction A with
  | nil => intro _; rfl
  | cons a t ih =>
    intro h
    rw [List.dropWhile_cons, h a (by simp), if_pos rfl, ih fun x hx => h x (by simp [hx])]

lemma takeWhile_stop {α} {p : α → Bool} :
    ∀ (A : List α) (b : α) (B : List α), (∀ a ∈ A, p a = true) → p b = false →
      (A ++ b :: B).takeWhile p = A := by
  intro A
  induction A with
  | nil =>
    intro b B _ hb
    rw [List.nil_append, List.takeWhile_cons, hb]
    simp
  | cons a t ih =>
    intro b B h hb
    rw [List.cons_append, List.takeWhile_cons, h a (by simp), if_pos rfl,
      ih b B (fun x hx => h x (by simp [hx])) hb]

lemma dropWhile_stop {α} {p : α → Bool} :
    ∀ (A : List α) (b : α) (B : List α), (∀ a ∈ A, p a = true) → p b = false →
      (A ++ b :: B).dropWhile p = b :: B := by
  intro A
  induction A with
  | nil =>
    intro b B _ hb
    rw [List.nil_append, List.dropWhile_cons, hb]
    simp
  | cons a t ih =>
    intro b B h hb
    rw [List.cons_append, List.dropWhile_cons, h a (by simp), if_pos rfl,
      ih b B (fun x hx => h x (by simp [hx])) hb]

/-! Facts about the escaper and the single-character reader. -/

lemma escape_literal_char_head (c : Char) :
    ∃ d t, escape_literal_char c = d :: t ∧ d.isDigit = false := by
  by_cases h1 : c = '#'
  · exact ⟨'#', ['#'], by simp [escape_literal_char, h1], by decide⟩
  · by_cases h2 : c.isDigit
    · exact ⟨'#', [c], by simp [escape_literal_char, h1, h2], by decide⟩
    · exact ⟨c, [], by simp [escape_literal_char, h1, h2], by simpa using h2⟩

lemma unescape_one_escape (c : Char) (l : List Char) :
    unescape_one (escape_literal_char c ++ l) = .ok (c, l) := by
  by_cases h1 : c = '#'
  · subst h1; rfl
  · by_cases h2 : c.isDigit
    · have : escape_literal_char c ++ l = '#' :: c :: l := by
        simp [escape_literal_char, h1, h2]
      rw [this]
      simp [unescape_one, h1, h2]
    · have : escape_literal_char c ++ l = c :: l := by
        simp [escape_literal_char, h1, h2]
      rw [this]
      simp [unescape_one, h1, h2]

lemma encodeAux_head :
    ∀ (rest : List Char) (prev : Char) (n : Nat),
      ∃ d t, encodeAux prev n rest = d :: t ∧ d.isDigit = false := by
  intro rest
  induction rest with
  | nil =>
    intro prev n
    obtain ⟨d, t, he, hd⟩ := escape_literal_char_head prev
    exact ⟨d, t ++ countSuffix n, by simp [encodeAux, he], hd⟩
  | cons c rs ih =>
    intro prev n
    by_cases hc : c = prev
    · simpa [encodeAux, hc] using ih prev (n + 1)
    · obtain ⟨d, t, he, hd⟩ := escape_literal_char_head prev
      exact ⟨d, t ++ countSuffix n ++ encodeAux c 1 rs, by simp [encodeAux, hc, he], hd⟩

lemma escape_append_ne_nil (c : Char) (l : List Char) :
    escape_literal_char c ++ l ≠ [] := by
  obtain ⟨d, t, he, _⟩ := escape_literal_char_head c
  rw [he]
  simp

lemma escape_length_pos (c : Char) : 1 ≤ (escape_literal_char c).length := by
  obtain ⟨d, t, he, _⟩ := escape_literal_char_head c
  rw [he]
  simp

/-! Unfolding lemmas for the decode loop. -/

lemma decodeLoop_nil (f : Nat) : decodeLoop f [] = .ok [] := by
  cases f <;> rfl

lemma decodeLoop_step (f : Nat) {l : List Char} {lit : Char} {rest : List Char}
    (hl : l ≠ []) (h : unescape_one l = .ok (lit, rest)) :
    decodeLoop (f + 1) l =
      if (rest.takeWhile fun d => d.isDigit).isEmpty then
        (decodeLoop f rest).map fun tl => lit :: tl
      else if parseNat (rest.takeWhile fun d => d.isDigit) = 0 then
        .error .nonPositiveCount
      else
        (decodeLoop f (rest.dropWhile fun d => d.isDigit)).map fun tl =>
          List.replicate (parseNat (rest.takeWhile fun d => d.isDigit)) lit ++ tl := by
  obtain ⟨c, t, rfl⟩ : ∃ c t, l = c :: t := by
    cases l with
    | nil => exact absurd rfl hl
    | cons c t => exact ⟨c, t, rfl⟩
  simp only [decodeLoop]
  rw [h]

lemma decodeLoop_step_err (f : Nat) {l : List Char} {e : FormatError}
    (hl : l ≠ []) (h : unescape_one l = .error e) :
    decodeLoop (f + 1) l = .error e := by
  obtain ⟨c, t, rfl⟩ : ∃ c t, l = c :: t := by
    cases l with
    | nil => exact absurd rfl hl
    | cons c t => exact ⟨c, t, rfl⟩
  simp only [decodeLoop]
  rw [h]

/-! The decoder inverts the encoder. -/

lemma decodeLoop_encodeAux :
    ∀ (rest : List Char) (prev : Char) (n f : Nat), 1 ≤ n →
      (encodeAux prev n rest).length ≤ f →
      decodeLoop f (encodeAux prev n rest) = .ok (List.replicate n prev ++ rest) := by
  intro rest
  induction rest with
  | nil =>
    intro prev n f hn hf
    have hstep : encodeAux prev n [] = escape_literal_char prev ++ countSuffix n := rfl
    rw [hstep] at hf ⊢
    obtain ⟨f', rfl⟩ : ∃ f', f = f' + 1 := by
      cases f with
      | zero =>
        exfalso
        have h1 := escape_length_pos prev
        rw [List.length_append] at hf
        omega
      | succ f' => exact ⟨f', rfl⟩
    by_cases h1 : 1 < n
    · have hcs : countSuffix n = natDigits n := if_pos h1
      rw [hcs]
      rw [decodeLoop_step f' (escape_append_ne_nil _ _) (unescape_one_escape prev _)]
      have hall : ∀ x ∈ natDigits n, (fun d => Char.isDigit d) x = true :=
        fun x hx => mem_natDigits_isDigit hx
      rw [takeWhile_all hall, dropWhile_all hall]
      have hnn : natDigits n ≠ [] := natDigits_ne_nil (by omega)
      have hne2 : (natDigits n).isEmpty = false := by
        cases hx : natDigits n with
        | nil => exact absurd hx hnn
        | cons a b => rfl
      rw [if_neg (by simp [hne2]), parseNat_natDigits,
        if_neg (show ¬n = 0 by omega), decodeLoop_nil]
      simp [Except.map]
    · have hn1 : n = 1 := by omega
      subst hn1
      rw [show countSuffix 1 = [] from rfl]
      rw [decodeLoop_step f' (escape_append_ne_nil _ _) (unescape_one_escape prev [])]
      rw [if_pos (by rfl), decodeLoop_nil]
      simp [Except.map]
  | cons c rs ih =>
    intro prev n f hn hf
    by_cases hc : c = prev
    · subst hc
      have hstep : encodeAux c n (c :: rs) = encodeAux c (n + 1) rs := by
        simp [encodeAux]
      rw [hstep] at hf ⊢
      rw [ih c (n + 1) f (by omega) hf]
      congr 1
      rw [List.replicate_succ']
      simp
    · have hstep : encodeAux prev n (c :: rs) =
          escape_literal_char prev ++ (countSuffix n ++ encodeAux c 1 rs) := by
        simp [encodeAux, hc]
      rw [hstep] at hf ⊢
      obtain ⟨d, t, htail, hdnd⟩ := encodeAux_head rs c 1
      obtain ⟨f', rfl⟩ : ∃ f', f = f' + 1 := by
        cases f with
        | zero =>
          exfalso
          have h1 := escape_length_pos prev
          rw [List.length_append] at hf
          omega
        | succ f' => exact ⟨f', rfl⟩
      have hlen : (encodeAux c 1 rs).length ≤ f' := by
        have h1 := escape_length_pos prev
        rw [List.length_append, List.length_append] at hf
        omega
      rw [decodeLoop_step f' (escape_append_ne_nil _ _) (unescape_one_escape prev _)]
      by_cases h1 : 1 < n
      · have hcs : countSuffix n = natDigits n := if_pos h1
        rw [hcs, htail]
        have hall : ∀ x ∈ natDigits n, (fun d => Char.isDigit d) x = true :=
          fun x hx => mem_natDigits_isDigit hx
        rw [takeWhile_stop _ d t hall hdnd, dropWhile_stop _ d t hall hdnd]
        have hnn : natDigits n ≠ [] := natDigits_ne_nil (by omega)
        have hne2 : (natDigits n).isEmpty = false := by
          cases hx : natDigits n with
          | nil => exact absurd hx hnn
          | cons a b => rfl
        rw [if_neg (by simp [hne2]), parseNat_natDigits,
          if_neg (show ¬n = 0 by omega), ← htail,
          ih c 1 f' (le_refl 1) hlen]
        simp [Except.map]
      · have hn1 : n = 1 := by omega
        subst hn1
        rw [show countSuffix 1 = [] from rfl, List.nil_append, htail]
        have htw : ((d :: t).takeWhile fun x => x.isDigit) = [] := by
          simp [List.takeWhile_cons, hdnd]
        rw [if_pos (by simp [htw]), ← htail, ih c 1 f' (le_refl 1) hlen]
        simp [Except.map]

lemma decode_rle_mark (X : List Char) :
    decode_rle (ENCODED_MARK ++ X) = decodeLoop X.length X := rfl

lemma encode_rle_cons (c : Char) (rest : List Char) :
    encode_rle (c :: rest) = ENCODED_MARK ++ encodeAux c 1 rest := rfl

/-! Token decomposition of the encoder output, used to state the
canonical-form invariant: the encoder emits one `(run character, run length)`
token per maximal run, rendered as escaped character plus count part. -/

/-- The run tokens the encoder loop flushes, in order. -/
def encodeTokens (prev : Char) (count : Nat) : List Char → List (Char × Nat)
  | [] => [(prev, count)]
  | c :: rest =>
    if c = prev then encodeTokens prev (count + 1) rest
    else (prev, count) :: encodeTokens c 1 rest

/-- How one flushed run appears in the encoded payload. -/
def renderToken (t : Char × Nat) : List Char :=
  escape_literal_char t.1 ++ countSuffix t.2

lemma encodeAux_eq_tokens :
    ∀ (rest : List Char) (prev : Char) (n : Nat),
      encodeAux prev n rest = ((encodeTokens prev n rest).map renderToken).flatten := by
  intro rest
  induction rest with
  | nil => intro prev n; simp [encodeAux, encodeTokens, renderToken]
  | cons c rs ih =>
    intro prev n
    by_cases hc : c = prev
    · simp [encodeAux, encodeTokens, hc, ih]
    · simp [encodeAux, encodeTokens, hc, ih, renderToken]

lemma encodeTokens_pos :
    ∀ (rest : List Char) (prev : Char) (n : Nat), 1 ≤ n →
      ∀ t ∈ encodeTokens prev n rest, 1 ≤ t.2 := by
  intro rest
  induction rest with
  | nil =>
    intro prev n hn t ht
    simp [encodeTokens] at ht
    rw [ht]
    exact hn
  | cons c rs ih =>
    intro prev n hn t ht
    by_cases hc : c = prev
    · exact ih prev (n + 1) (by omega) t (by simpa [encodeTokens, hc] using ht)
    · simp only [encodeTokens, if_neg hc, List.mem_cons] at ht
      cases ht with
      | inl h => rw [h]; exact hn
      | inr h => exact ih c 1 (le_refl 1) t h

/-! Claim theorems. -/

/-- C1. Round-trip: for every string `r` (including the empty string and
strings containing letters, digits, and the hash character),
`decode_rle (encode_rle r)` succeeds and returns `r`. -/
theorem rle_round_trip (raw : List Char) :
    decode_rle (encode_rle raw) = .ok raw := by
  cases raw with
  | nil => rfl
  | cons c rest =>
    rw [encode_rle_cons, decode_rle_mark,
      decodeLoop_encodeAux rest c 1 (encodeAux c 1 rest).length (le_refl 1) (le_refl _)]
    simp

/-- C2. Sentinel invariant: every value of `encode_rle` starts with the
four-character sentinel `##00`, and `decode_rle` fails with the
missing-sentinel error on every input that does not start with it. -/
theorem mark_invariant :
    (∀ r : List Char, ∃ t, encode_rle r = ENCODED_MARK ++ t) ∧
    (∀ e : List Char, (¬ ∃ t, e = ENCODED_MARK ++ t) →
      decode_rle e = .error .missingSentinel) := by
  constructor
  · intro r
    cases r with
    | nil => exact ⟨[], by simp [encode_rle]⟩
    | cons c rest => exact ⟨encodeAux c 1 rest, rfl⟩
  · intro e he
    have hne : ¬e.take 4 = ENCODED_MARK := by
      intro h4
      exact he ⟨e.drop 4, by conv_lhs => rw [← List.take_append_drop 4 e, h4]⟩
    simp [decode_rle, hne]

/-- C2 witness: a concrete input without the sentinel is rejected. -/
theorem mark_invariant_witness : decode_rle ['A', '3'] = .error .missingSentinel :=
  mark_invariant.2 ['A', '3'] (by rintro ⟨t, h⟩; simp [ENCODED_MARK] at h)

/-- C3. Canonical form: the encoder output decomposes into the sentinel plus
rendered run tokens, and no token's emitted count part is the numeral `1`:
each is either absent or a numeral whose value is at least 2. -/
theorem encode_canonical_counts (r : List Char) :
    ∃ tokens : List (Char × Nat),
      encode_rle r = ENCODED_MARK ++ (tokens.map renderToken).flatten ∧
      ∀ t ∈ tokens, countSuffix t.2 ≠ ['1'] ∧
        (countSuffix t.2 = [] ∨ 2 ≤ parseNat (countSuffix t.2)) := by
  cases r with
  | nil => exact ⟨[], by simp [encode_rle], by simp⟩
  | cons c rest =>
    refine ⟨encodeTokens c 1 rest, ?_, ?_⟩
    · rw [encode_rle_cons, encodeAux_eq_tokens]
    · intro t ht
      have h1 := encodeTokens_pos rest c 1 (le_refl 1) t ht
      by_cases h2 : 1 < t.2
      · have hcs : countSuffix t.2 = natDigits t.2 := if_pos h2
        constructor
        · rw [hcs]
          exact natDigits_ne_one (by omega)
        · right
          rw [hcs, parseNat_natDigits]
          omega
      · have ht1 : t.2 = 1 := by omega
        have hcs : countSuffix t.2 = [] := by simp [countSuffix, ht1]
        constructor
        · rw [hcs]
          simp
        · left
          exact hcs

/-- C3 witness: the decomposition instantiated at a concrete repeated input. -/
theorem encode_canonical_counts_witness :
    ∃ tokens : List (Char × Nat),
      encode_rle ['A', 'A', 'A'] = ENCODED_MARK ++ (tokens.map renderToken).flatten ∧
      ∀ t ∈ tokens, countSuffix t.2 ≠ ['1'] ∧
        (countSuffix t.2 = [] ∨ 2 ≤ parseNat (countSuffix t.2)) :=
  encode_canonical_counts ['A', 'A', 'A']

/-- C6. Classifier fixed point: `is_probably_encoded` answers `true` on every
encoder output, so already-encoded text is routed to decoding. -/
theorem classifier_fixed_point (r : List Char) :
    is_probably_encoded (encode_rle r) = true := by
  cases r with
  | nil => rfl
  | cons c rest => rfl

/-! Helper lemmas for the error-path claims. -/

lemma unescape_one_plain {c : Char} (h1 : c ≠ '#') (h2 : c.isDigit = false)
    (rest : List Char) : unescape_one (c :: rest) = .ok (c, rest) := by
  simp [unescape_one, h1, h2]

lemma decodeLoop_plain_dangling :
    ∀ (q : List Char) (f : Nat), (∀ c ∈ q, c ≠ '#' ∧ c.isDigit = false) →
      (q ++ ['#']).length ≤ f →
      decodeLoop f (q ++ ['#']) = .error .danglingEscape := by
  intro q
  induction q with
  | nil =>
    intro f _ hf
    obtain ⟨f', rfl⟩ : ∃ f', f = f' + 1 := by
      cases f with
      | zero => exfalso; simp at hf
      | succ f' => exact ⟨f', rfl⟩
    rw [List.nil_append]
    exact decodeLoop_step_err f' (by simp) rfl
  | cons a q' ih =>
    intro f h hf
    obtain ⟨ha1, ha2⟩ := h a (by simp)
    obtain ⟨f', rfl⟩ : ∃ f', f = f' + 1 := by
      cases f with
      | zero => exfalso; simp at hf
      | succ f' => exact ⟨f', rfl⟩
    rw [List.cons_append]
    rw [decodeLoop_step f' (by simp) (unescape_one_plain ha1 ha2 _)]
    have htw : ((q' ++ ['#']).takeWhile fun d => d.isDigit) = [] := by
      cases hq : q' with
      | nil => rfl
      | cons b q'' =>
        have hb := h b (by simp [hq])
        simp [List.takeWhile_cons, hb.2]
    rw [if_pos (by simp [htw])]
    rw [ih f' (fun c hc => h c (by simp [hc])) (by simp at hf ⊢; omega)]
    rfl

lemma all_false_of_mem {α} {p : α → Bool} {s : List α} {c : α}
    (hc : c ∈ s) (hf : p c = false) : s.all p = false := by
  induction s with
  | nil => cases hc
  | cons a t ih =>
    rw [List.all_cons]
    rcases List.mem_cons.mp hc with h | h
    · rw [← h, hf]
      rfl
    · rw [ih h]
      simp

lemma exists_not_of_all_false {α} {p : α → Bool} :
    ∀ {s : List α}, s.all p = false → ∃ c ∈ s, p c = false := by
  intro s
  induction s with
  | nil => intro h; simp at h
  | cons a t ih =>
    intro h
    rw [List.all_cons] at h
    by_cases hpa : p a = true
    · rw [hpa] at h
      simp only [Bool.true_and] at h
      obtain ⟨c, hc, hcf⟩ := ih h
      exact ⟨c, by simp [hc], hcf⟩
    · exact ⟨a, by simp, by simpa using hpa⟩

/-- C4 counterexample: the payload of `##00##` ends in a hash character, yet
`decode_rle` succeeds (the final hash is the second half of the `##` escape),
so "fails whenever the payload's last character is `#`" is false as stated. -/
theorem dangling_escape_claim_cex :
    decode_rle ['#', '#', '0', '0', '#', '#'] = .ok ['#'] ∧
    decode_rle ['#', '#', '0', '0', '#', '#'] ≠ .error .danglingEscape ∧
    ['#', '#'].getLast? = some '#' := by
  have h : decode_rle ['#', '#', '0', '0', '#', '#'] = .ok ['#'] := rfl
  exact ⟨h, by simp [h], rfl⟩

/-- C4 amended: the dangling-escape error occurs exactly when the
single-character reader is invoked on a final hash, i.e. when a hash that
starts an escape has no following character; in particular a payload of
plain (non-hash, non-digit) literals followed by a trailing hash makes
`decode_rle` fail with the dangling-escape error. -/
theorem dangling_escape_amended :
    (∀ l : List Char, unescape_one l = .error .danglingEscape ↔ l = ['#']) ∧
    (∀ q : List Char, (∀ c ∈ q, c ≠ '#' ∧ c.isDigit = false) →
      decode_rle (ENCODED_MARK ++ (q ++ ['#'])) = .error .danglingEscape) := by
  constructor
  · intro l
    constructor
    · intro h
      cases l with
      | nil => simp [unescape_one] at h
      | cons c rest =>
        by_cases h1 : c = '#'
        · subst h1
          cases rest with
          | nil => rfl
          | cons d r2 =>
            exfalso
            by_cases h2 : d = '#'
            · simp [unescape_one, h2] at h
            · by_cases h3 : d.isDigit
              · simp [unescape_one, h2, h3] at h
              · simp [unescape_one, h2, h3] at h
        · by_cases h2 : c.isDigit
          · simp [unescape_one, h1, h2] at h
          · simp [unescape_one, h1, h2] at h
    · intro h
      rw [h]
      rfl
  · intro q hq
    rw [decode_rle_mark]
    exact decodeLoop_plain_dangling q (q ++ ['#']).length hq (le_refl _)

/-- C4 witness: a concrete trailing-hash payload is rejected as a dangling escape. -/
theorem dangling_escape_amended_witness :
    decode_rle (ENCODED_MARK ++ (['A'] ++ ['#'])) = .error .danglingEscape :=
  dangling_escape_amended.2 ['A'] (by decide)

/-- C5. Unescaped digit: whenever the single-character reader meets a bare
decimal digit where a literal is expected it fails with the unescaped-digit
error, and in particular `decode_rle` rejects `##001`. -/
theorem unescaped_digit_spec :
    (∀ (c : Char) (rest : List Char), c.isDigit = true →
      unescape_one (c :: rest) = .error .unescapedDigit) ∧
    decode_rle ['#', '#', '0', '0', '1'] = .error .unescapedDigit := by
  constructor
  · intro c rest hc
    have h1 : c ≠ '#' := by
      intro h
      rw [h] at hc
      exact absurd hc (by decide)
    simp [unescape_one, h1, hc]
  · rfl

/-- C5 witness: the reader rejects a concrete bare digit. -/
theorem unescaped_digit_spec_witness :
    unescape_one ['7'] = .error .unescapedDigit :=
  unescaped_digit_spec.1 '7' [] (by decide)

/-- C7. Legacy decoder: `A3BC2` decodes to `AAABCC`, `3ABC` is rejected with
the count-before-character error, and in general any input whose first
character (the start of a run) is a decimal digit is so rejected. -/
theorem legacy_decode_spec :
    decode_legacy_rle ['A', '3', 'B', 'C', '2'] = .ok ['A', 'A', 'A', 'B', 'C', 'C'] ∧
    decode_legacy_rle ['3', 'A', 'B', 'C'] = .error .countBeforeCharacter ∧
    (∀ (c : Char) (rest : List Char), c.isDigit = true →
      decode_legacy_rle (c :: rest) = .error .countBeforeCharacter) := by
  refine ⟨rfl, rfl, ?_⟩
  intro c rest hc
  show decodeLegacyLoop (c :: rest).length (c :: rest) = _
  rw [List.length_cons]
  simp [decodeLegacyLoop, hc]

/-- C7 witness: a concrete digit-first legacy input is rejected. -/
theorem legacy_decode_spec_witness :
    decode_legacy_rle ['5'] = .error .countBeforeCharacter :=
  legacy_decode_spec.2.2 '5' [] (by decide)

/-- C8. Alphabetic validator: `validate_activity1_input_alpha` fails with a
`ValidationError` exactly when the input is empty or contains a
non-alphabetic character; otherwise it returns unit. -/
theorem validate_alpha_spec (s : List Char) :
    (∃ e, validate_activity1_input_alpha s = .error e) ↔
      (s = [] ∨ ∃ c ∈ s, c.isAlpha = false) := by
  constructor
  · rintro ⟨e, he⟩
    by_cases h0 : s = []
    · exact Or.inl h0
    · right
      simp only [validate_activity1_input_alpha, if_neg h0] at he
      by_cases hp : pyIsAlpha s = true
      · rw [hp] at he
        simp at he
      · have hall : s.all (fun c => c.isAlpha) = false := by
          by_cases ha : s.all (fun c => c.isAlpha) = true
          · exfalso
            apply hp
            have hie : s.isEmpty = false := by
              cases s with
              | nil => exact absurd rfl h0
              | cons a t => rfl
            simp [pyIsAlpha, hie, ha]
          · simpa using ha
        exact exists_not_of_all_false hall
  · intro h
    rcases h with h0 | ⟨c, hc, hcf⟩
    · exact ⟨.emptyInput, by simp [validate_activity1_input_alpha, h0]⟩
    · have h0 : s ≠ [] := by
        rintro rfl
        simp at hc
      have hp : pyIsAlpha s = false := by
        have hf := all_false_of_mem hc hcf
        simp [pyIsAlpha, hf]
      exact ⟨.nonAlphabetic, by simp [validate_activity1_input_alpha, h0, hp]⟩

/-- C9. Empty input: encoding the empty string yields exactly the sentinel,
and decoding the bare sentinel yields the empty string with no error. -/
theorem empty_input_spec :
    encode_rle [] = ENCODED_MARK ∧ decode_rle ENCODED_MARK = .ok [] :=
  ⟨rfl, rfl⟩

/-- C10. Explicit counts of 1 (and leading zeros) are accepted: `##00A1` and
`##00A01` both decode to `A`, and in general a single escaped literal followed
by any all-digit count token of positive value decodes to that many copies of
the literal. -/
theorem count_one_accepted :
    decode_rle ['#', '#', '0', '0', 'A', '1'] = .ok ['A'] ∧
    decode_rle ['#', '#', '0', '0', 'A', '0', '1'] = .ok ['A'] ∧
    (∀ (c : Char) (ds : List Char), ds ≠ [] → (∀ d ∈ ds, d.isDigit = true) →
      1 ≤ parseNat ds →
      decode_rle (ENCODED_MARK ++ (escape_literal_char c ++ ds)) =
        .ok (List.replicate (parseNat ds) c)) := by
  refine ⟨rfl, rfl, ?_⟩
  intro c ds hne hall hpos
  rw [decode_rle_mark]
  obtain ⟨f', hf'⟩ : ∃ f', (escape_literal_char c ++ ds).length = f' + 1 := by
    have := escape_length_pos c
    refine ⟨(escape_literal_char c ++ ds).length - 1, ?_⟩
    rw [List.length_append]
    omega
  rw [hf']
  rw [decodeLoop_step f' (escape_append_ne_nil _ _) (unescape_one_escape c ds)]
  have hall' : ∀ x ∈ ds, (fun d => Char.isDigit d) x = true := hall
  rw [takeWhile_all hall', dropWhile_all hall']
  have hne2 : ds.isEmpty = false := by
    cases hx : ds with
    | nil => exact absurd hx hne
    | cons a b => rfl
  rw [if_neg (by simp [hne2]), if_neg (show ¬parseNat ds = 0 by omega), decodeLoop_nil]
  simp [Except.map]

/-- C10 witness: a leading-zero count token expands a concrete literal. -/
theorem count_one_accepted_witness :
    decode_rle (ENCODED_MARK ++ (escape_literal_char 'B' ++ ['0', '2'])) =
      .ok (List.replicate (parseNat ['0', '2']) 'B') :=
  count_one_accepted.2.2 'B' ['0', '2'] (by decide) (by decide) (by decide)

end RleCodec
